import Mathlib

set_option maxHeartbeats 1000000

/-!
Verification development for the chem-search-v2 repository.

The repository has two source files:

* `app.py` — corpus loading/validation, a hashed character-bigram
  vectorizer, cosine-similarity search with structured filters, and an
  HTTP handler including a path-traversal guard for `/pdf/` requests.
* `scripts/extract_pdf_problems.py` — the PDF extraction pipeline:
  marker detection, geometric segment building, text normalization and
  heuristic classification.

Python floats arising in the search pipeline are modelled by exact real
arithmetic.  Every weight produced by `vectorize_text` is of the shape
`count / sqrt S` with natural `count` and `S`, so sparse vectors are
embedded as the pair (integral count dictionary, squared norm) and the
real-number semantics is stated explicitly in the theorems.  All
dictionaries keep Python dict insertion order as association lists.
-/

namespace ChemSearch

open scoped List

/-! ## app.py : text normalization and vectorization -/

/-- Embeds `normalize_text` of app.py: lowercase the text and remove every
whitespace character (`"".join(ch for ch in (text or "").lower() if not
ch.isspace())`). Lean's `Char.toLower` / `Char.isWhitespace` stand for the
Python character classes; no claim depends on locale corner cases. -/
def normalize_text (text : String) : String :=
  ⟨(text.data.map Char.toLower).filter (fun ch => !ch.isWhitespace)⟩

/-- Embeds `char_ngrams` of app.py over the character list of a string:
`[text[i : i + n] for i in range(len(text) - n + 1)]`, with the short-text
fallback `[text] if text else []`. -/
def char_ngrams (text : List Char) (n : ℕ) : List (List Char) :=
  if text.length < n then (if text = [] then [] else [text])
  else (List.range (text.length - n + 1)).map (fun i => (text.drop i).take n)

/-- Embeds the constant `VECTOR_DIM = 4096` of app.py. -/
def VECTOR_DIM : ℕ := 4096

/-- Stand-in for the leading four bytes (big-endian) of the MD5 digest of
the UTF-8 encoding of an ngram; `hashlib` is external library code, not
part of this repository.  The claims depend only on `hash_ngram` being a
fixed deterministic function, never on particular digest values, so any
deterministic map into `[0, 2^32)` is a faithful model. -/
def md5_first4 (gram : List Char) : ℕ :=
  gram.foldl (fun h c => (h * 1000003 + c.toNat) % 4294967296) 5381

/-- Embeds `hash_ngram` of app.py (modulo the md5 stand-in): the digest
prefix reduced modulo `VECTOR_DIM`. -/
def hash_ngram (gram : List Char) : ℕ := md5_first4 gram % VECTOR_DIM

/-- One step of the dictionary-building loop of `vectorize_text`:
`vec[idx] = vec.get(idx, 0.0) + 1.0`, keeping Python dict insertion order.
The accumulated float counts are always integral, so they live in ℕ. -/
def bumpBucket : List (ℕ × ℕ) → ℕ → List (ℕ × ℕ)
  | [], idx => [(idx, 1)]
  | (j, c) :: rest, idx =>
      if j = idx then (j, c + 1) :: rest else (j, c) :: bumpBucket rest idx

/-- The bucket→count dictionary built by the loop of `vectorize_text`. -/
def vectorize_counts (text : String) : List (ℕ × ℕ) :=
  (char_ngrams (normalize_text text).data 2).foldl
    (fun vec gram => bumpBucket vec (hash_ngram gram)) []

/-- Sparse vector as produced by `vectorize_text` of app.py, in exact
representation: the source divides every count by the Euclidean norm
`sqrt normSq` when that norm is positive, so the real weight of an entry
`(i, c)` is `c / Real.sqrt normSq`.  `normSq` is the squared Euclidean
norm of the raw counts; it is `0` exactly when `counts` is empty, in which
case the source performs no division either and the vector is the empty
mapping. -/
structure SparseVec where
  counts : List (ℕ × ℕ)
  normSq : ℕ
deriving DecidableEq, Repr

/-- Embeds `vectorize_text` of app.py in the exact `SparseVec`
representation. -/
def vectorize_text (text : String) : SparseVec :=
  let vec := vectorize_counts text
  { counts := vec, normSq := (vec.map (fun p => p.2 * p.2)).sum }

/-! ### Supporting lemmas about the vectorizer -/

theorem bumpBucket_ne_nil (l : List (ℕ × ℕ)) (idx : ℕ) :
    bumpBucket l idx ≠ [] := by
  match l with
  | [] => simp [bumpBucket]
  | (j, c) :: rest =>
    by_cases h : j = idx <;> simp [bumpBucket, h]

theorem bumpBucket_pos (l : List (ℕ × ℕ)) (idx : ℕ)
    (hl : ∀ p ∈ l, 1 ≤ p.2) : ∀ p ∈ bumpBucket l idx, 1 ≤ p.2 := by
  induction l with
  | nil =>
    intro p hp
    simp only [bumpBucket, List.mem_singleton] at hp
    rw [hp]
  | cons q rest ih =>
    obtain ⟨j, c⟩ := q
    intro p hp
    by_cases h : j = idx
    · simp only [bumpBucket, if_pos h, List.mem_cons] at hp
      rcases hp with hp | hp
      · rw [hp]; simp
      · exact hl p (List.mem_cons_of_mem _ hp)
    · simp only [bumpBucket, if_neg h, List.mem_cons] at hp
      rcases hp with hp | hp
      · rw [hp]; exact hl (j, c) (by simp)
      · exact ih (fun q hq => hl q (List.mem_cons_of_mem _ hq)) p hp

theorem vectorize_counts_pos (t : String) :
    ∀ p ∈ vectorize_counts t, 1 ≤ p.2 := by
  unfold vectorize_counts
  generalize char_ngrams (normalize_text t).data 2 = grams
  induction grams using List.reverseRecOn with
  | nil => simp
  | append_singleton gs g ih =>
    rw [List.foldl_append]
    exact bumpBucket_pos _ _ ih

theorem foldl_bumpBucket_ne_nil (gs : List (List Char)) (v : List (ℕ × ℕ))
    (hv : v ≠ []) :
    gs.foldl (fun vec gram => bumpBucket vec (hash_ngram gram)) v ≠ [] := by
  induction gs generalizing v with
  | nil => simpa using hv
  | cons g gs ih =>
    rw [List.foldl_cons]
    exact ih _ (bumpBucket_ne_nil v (hash_ngram g))

theorem vectorize_counts_ne_nil (t : String)
    (h : (normalize_text t).data ≠ []) : vectorize_counts t ≠ [] := by
  unfold vectorize_counts
  have hg : char_ngrams (normalize_text t).data 2 ≠ [] := by
    unfold char_ngrams
    split
    · simp [h]
    · rename_i hlen
      have h1 : 1 ≤ (normalize_text t).data.length - 2 + 1 := by omega
      intro hc
      rw [List.map_eq_nil_iff, List.range_eq_nil] at hc
      omega
  obtain ⟨g, gs, hcons⟩ := List.exists_cons_of_ne_nil hg
  rw [hcons, List.foldl_cons]
  exact foldl_bumpBucket_ne_nil gs _ (bumpBucket_ne_nil [] (hash_ngram g))

theorem vectorize_counts_nil (t : String)
    (h : (normalize_text t).data = []) : vectorize_counts t = [] := by
  unfold vectorize_counts char_ngrams
  simp [h]

theorem vectorize_normSq_pos (t : String)
    (h : (vectorize_text t).counts ≠ []) : 1 ≤ (vectorize_text t).normSq := by
  unfold vectorize_text at *
  simp only at h ⊢
  obtain ⟨p, ps, hps⟩ := List.exists_cons_of_ne_nil h
  have hp : 1 ≤ p.2 := vectorize_counts_pos t p (by rw [hps]; simp)
  rw [hps]
  simp only [List.map_cons, List.sum_cons]
  have : 1 ≤ p.2 * p.2 := Nat.one_le_iff_ne_zero.mpr (by positivity)
  omega

/-! ### Claim C1 -/

/-- Claim C1 (amended): for every input text `t`, if the lowercased,
whitespace-stripped text is empty then `vectorize_text t` is the empty
mapping, and otherwise (equivalently: `char_ngrams` yields at least one
token — a bigram when the normalized text has length at least 2, the whole
one-character text otherwise) the Euclidean norm of `vectorize_text t`,
i.e. the square root of the sum of the squared real weights
`count / sqrt normSq`, is exactly 1. -/
theorem vectorize_unit_norm (t : String) :
    (normalize_text t = "" → vectorize_text t = ⟨[], 0⟩) ∧
    (normalize_text t ≠ "" →
      Real.sqrt (((vectorize_text t).counts.map
        (fun p => ((p.2 : ℝ) / Real.sqrt ((vectorize_text t).normSq)) ^ 2)).sum)
        = 1) := by
  constructor
  · intro h
    have hd : (normalize_text t).data = [] := by
      rw [h]
    simp [vectorize_text, vectorize_counts_nil t hd]
  · intro h
    have hd : (normalize_text t).data ≠ [] := by
      intro hc
      apply h
      cases hnt : normalize_text t with
      | mk l =>
        rw [hnt] at hc
        simp only [String.data] at hc
        rw [hc]
    have hne : (vectorize_text t).counts ≠ [] := by
      simpa [vectorize_text] using vectorize_counts_ne_nil t hd
    have hS : 1 ≤ (vectorize_text t).normSq := vectorize_normSq_pos t hne
    set S : ℕ := (vectorize_text t).normSq with hSdef
    have hS0 : (0 : ℝ) < (S : ℝ) := by exact_mod_cast hS
    have hsq : (Real.sqrt (S : ℝ)) ^ 2 = (S : ℝ) := Real.sq_sqrt (le_of_lt hS0)
    have hmap : ((vectorize_text t).counts.map
        (fun p => ((p.2 : ℝ) / Real.sqrt (S : ℝ)) ^ 2)).sum
        = ((vectorize_text t).counts.map (fun p => (p.2 : ℝ) ^ 2)).sum * ((S : ℝ))⁻¹ := by
      rw [← List.sum_map_mul_right]
      apply congrArg
      apply List.map_congr_left
      intro p _
      rw [div_pow, hsq, div_eq_mul_inv]
    have hcast : ((vectorize_text t).counts.map (fun p => (p.2 : ℝ) ^ 2)).sum
        = ((((vectorize_text t).counts.map (fun p => p.2 * p.2)).sum : ℕ) : ℝ) := by
      rw [Nat.cast_list_sum, List.map_map]
      apply congrArg
      apply List.map_congr_left
      intro p _
      simp only [Function.comp_apply]
      push_cast
      try ring
    have hSs : ((vectorize_text t).counts.map (fun p => p.2 * p.2)).sum = S := by
      rw [hSdef]
      rfl
    rw [hmap, hcast, hSs, mul_inv_cancel₀ (ne_of_gt hS0), Real.sqrt_one]

/-- Counterexample to Claim C1 as stated: the one-character text `"a"`
yields no bigram (its only ngram token has length 1), yet `vectorize_text`
returns a non-empty mapping rather than the empty one. -/
theorem vectorize_unit_norm_cex :
    (∀ g ∈ char_ngrams (normalize_text "a").data 2, g.length ≠ 2) ∧
    vectorize_text "a" ≠ ⟨[], 0⟩ := by
  constructor
  · decide
  · decide

/-- Witness for the amended Claim C1 at the concrete input `"Ab c"`. -/
theorem vectorize_unit_norm_witness :
    normalize_text "Ab c" ≠ "" ∧
    Real.sqrt (((vectorize_text "Ab c").counts.map
      (fun p => ((p.2 : ℝ) / Real.sqrt ((vectorize_text "Ab c").normSq)) ^ 2)).sum)
      = 1 :=
  ⟨by decide, (vectorize_unit_norm "Ab c").2 (by decide)⟩

/-! ## app.py : cosine similarity -/

/-- Embeds the Python dict read `vec.get(index, 0.0)`: the value stored for
a key, or 0 when the key is absent. -/
def dictGet [Zero α] (vec : List (ℕ × α)) (index : ℕ) : α :=
  match vec.find? (fun p => p.1 == index) with
  | some p => p.2
  | none => 0

/-- The accumulation of `cosine_similarity` of app.py: the sum of
`value * vec_b.get(index, 0.0)` over the entries of `vec_a`. -/
def sharedSum [AddCommMonoid α] [Mul α] (vec_a vec_b : List (ℕ × α)) : α :=
  (vec_a.map (fun p => p.2 * dictGet vec_b p.1)).sum

/-- Embeds `cosine_similarity` of app.py: swap so that the iterated dict is
the smaller one, then accumulate over shared buckets.  The Python function
is untyped over numeric dict values, so the embedding is polymorphic; it is
used at ℚ (float dict values, which are rationals) and, inside the search
pipeline, at ℕ (the integral raw counts of `SparseVec`). -/
def cosine_similarity [AddCommMonoid α] [Mul α] (vec_a vec_b : List (ℕ × α)) : α :=
  if vec_a.length > vec_b.length then sharedSum vec_b vec_a
  else sharedSum vec_a vec_b

/-! ### Supporting lemmas about cosine similarity -/

theorem dictGet_cons_self [Zero α] (k : ℕ) (v : α) (rest : List (ℕ × α)) :
    dictGet ((k, v) :: rest) k = v := by
  simp [dictGet, List.find?]

theorem dictGet_cons_ne [Zero α] (k i : ℕ) (v : α) (rest : List (ℕ × α))
    (h : i ≠ k) : dictGet ((k, v) :: rest) i = dictGet rest i := by
  simp only [dictGet, List.find?]
  have : (k == i) = false := by simp [Ne.symm h]
  rw [this]

theorem dictGet_eq_zero [Zero α] (vec : List (ℕ × α)) (i : ℕ)
    (h : i ∉ vec.map Prod.fst) : dictGet vec i = 0 := by
  unfold dictGet
  have : vec.find? (fun p => p.1 == i) = none := by
    rw [List.find?_eq_none]
    intro p hp hbeq
    exact h (List.mem_map.mpr ⟨p, hp, by simpa using hbeq⟩)
  rw [this]

theorem sharedSum_eq_finset_sum [NonUnitalCommSemiring α]
    (a b : List (ℕ × α)) (ha : (a.map Prod.fst).Nodup) :
    sharedSum a b = ∑ i ∈ (a.map Prod.fst).toFinset, dictGet a i * dictGet b i := by
  induction a with
  | nil => simp [sharedSum]
  | cons p rest ih =>
    obtain ⟨k, v⟩ := p
    simp only [List.map_cons, List.nodup_cons] at ha
    obtain ⟨hk, hrest⟩ := ha
    have hins : ((k, v) :: rest).map Prod.fst = k :: rest.map Prod.fst := by simp
    rw [hins, List.toFinset_cons, Finset.sum_insert (by simpa using hk)]
    have hhead : dictGet ((k, v) :: rest) k = v := dictGet_cons_self k v rest
    have htail : ∀ i ∈ (rest.map Prod.fst).toFinset,
        dictGet ((k, v) :: rest) i * dictGet b i = dictGet rest i * dictGet b i := by
      intro i hi
      have hik : i ≠ k := by
        intro hc
        subst hc
        exact hk (by simpa using hi)
      rw [dictGet_cons_ne k i v rest hik]
    rw [Finset.sum_congr rfl htail, ← ih hrest, hhead]
    simp [sharedSum]

theorem sharedSum_extend [NonUnitalCommSemiring α]
    (a b : List (ℕ × α)) (ha : (a.map Prod.fst).Nodup) (U : Finset ℕ)
    (hU : (a.map Prod.fst).toFinset ⊆ U) :
    sharedSum a b = ∑ i ∈ U, dictGet a i * dictGet b i := by
  rw [sharedSum_eq_finset_sum a b ha]
  apply Finset.sum_subset hU
  intro i _ hi
  rw [dictGet_eq_zero a i (by simpa using hi), zero_mul]

theorem sharedSum_comm [NonUnitalCommSemiring α] (a b : List (ℕ × α))
    (ha : (a.map Prod.fst).Nodup) (hb : (b.map Prod.fst).Nodup) :
    sharedSum a b = sharedSum b a := by
  set U : Finset ℕ := (a.map Prod.fst).toFinset ∪ (b.map Prod.fst).toFinset with hU
  rw [sharedSum_extend a b ha U (Finset.subset_union_left),
    sharedSum_extend b a hb U (Finset.subset_union_right)]
  apply Finset.sum_congr rfl
  intro i _
  rw [mul_comm]

/-! ### Claim C9 -/

/-- Claim C9: cosine similarity is symmetric on sparse vectors (dictionaries
with pairwise-distinct keys; float values modelled as the rationals they
are), regardless of which vector is smaller. -/
theorem cosine_similarity_comm (vec_a vec_b : List (ℕ × ℚ))
    (ha : (vec_a.map Prod.fst).Nodup) (hb : (vec_b.map Prod.fst).Nodup) :
    cosine_similarity vec_a vec_b = cosine_similarity vec_b vec_a := by
  have hs : sharedSum vec_a vec_b = sharedSum vec_b vec_a :=
    sharedSum_comm vec_a vec_b ha hb
  unfold cosine_similarity
  split
  · split
    · exact hs.symm
    · rfl
  · split
    · rfl
    · exact hs

/-- Witness for Claim C9 at concrete vectors. -/
theorem cosine_similarity_comm_witness :
    (([(1, (1 : ℚ)/2), (2, 3)].map Prod.fst).Nodup ∧
      ([(2, (2 : ℚ))].map Prod.fst).Nodup) ∧
    cosine_similarity [(1, (1 : ℚ)/2), (2, 3)] [(2, (2 : ℚ))]
      = cosine_similarity [(2, (2 : ℚ))] [(1, (1 : ℚ)/2), (2, 3)] :=
  ⟨⟨by decide, by decide⟩,
    cosine_similarity_comm [(1, (1 : ℚ)/2), (2, 3)] [(2, (2 : ℚ))]
      (by decide) (by decide)⟩

/-! ## app.py : the corpus records and the loader -/

/-- Raw persisted record as decoded from the corpus JSON file, before
validation: every required field may be absent.  Optional source fields not
consulted by `load_problems` or by the search pipeline (`choices`,
`answer`, `pdf`) are omitted from the embedding. -/
structure RawItem where
  id? : Option String
  title? : Option String
  statement? : Option String
  tags? : Option (List String)
  concepts? : Option (List String)
  source? : Option String
deriving DecidableEq, Repr

/-- The list of required keys missing from a record, in the order of the
`required` list of `load_problems`
(`[k for k in required if k not in item]`). -/
def missingKeys (item : RawItem) : List String :=
  (if item.id?.isSome then [] else ["id"]) ++
  (if item.title?.isSome then [] else ["title"]) ++
  (if item.statement?.isSome then [] else ["statement"]) ++
  (if item.tags?.isSome then [] else ["tags"]) ++
  (if item.concepts?.isSome then [] else ["concepts"]) ++
  (if item.source?.isSome then [] else ["source"])

/-- The validation loop of `load_problems`: `seen` accumulates the ids
already seen; the first record with missing required keys, or whose id was
already seen, raises `ValueError` (modelled as `Except.error`). -/
def validateItems (seen : List String) : List RawItem → Except String Unit
  | [] => Except.ok ()
  | item :: rest =>
      if missingKeys item ≠ [] then Except.error "Missing keys"
      else if item.id?.getD "" ∈ seen then Except.error "Duplicate id"
      else validateItems (item.id?.getD "" :: seen) rest

/-- Embeds `load_problems` of app.py on the decoded record list (the file
read itself is external I/O): validate every record, then return the items
unchanged. -/
def load_problems (items : List RawItem) : Except String (List RawItem) :=
  match validateItems [] items with
  | Except.ok _ => Except.ok items
  | Except.error e => Except.error e

/-- Validated problem record, as consumed by the search side of app.py:
all required fields present (which `load_problems` guarantees). -/
structure Problem where
  id : String
  title : String
  statement : String
  tags : List String
  concepts : List String
  source : String
deriving DecidableEq, Repr

/-! ### Supporting lemma about the loader -/

theorem validateItems_ok_iff (items : List RawItem) (seen : List String) :
    validateItems seen items = Except.ok () ↔
      (∀ item ∈ items, missingKeys item = []) ∧
      (items.map (fun item => item.id?.getD "")).Nodup ∧
      (∀ i ∈ items.map (fun item => item.id?.getD ""), i ∉ seen) := by
  induction items generalizing seen with
  | nil => simp [validateItems]
  | cons item rest ih =>
    unfold validateItems
    by_cases hmiss : missingKeys item = []
    · rw [if_neg (by simpa using hmiss)]
      by_cases hseen : item.id?.getD "" ∈ seen
      · rw [if_pos hseen]
        constructor
        · intro hc; exact absurd hc (by simp)
        · intro ⟨_, _, hnot⟩
          exact absurd hseen (hnot _ (by simp))
      · rw [if_neg hseen, ih]
        constructor
        · intro ⟨h1, h2, h3⟩
          refine ⟨?_, ?_, ?_⟩
          · intro it hit
            rcases List.mem_cons.mp hit with h | h
            · rw [h]; exact hmiss
            · exact h1 it h
          · simp only [List.map_cons, List.nodup_cons]
            refine ⟨?_, h2⟩
            intro hc
            exact h3 _ hc (List.mem_cons_self _ _)
          · intro i hi
            simp only [List.map_cons, List.mem_cons] at hi
            rcases hi with h | h
            · rw [h]; exact hseen
            · intro hc
              exact h3 i h (List.mem_cons_of_mem _ hc)
        · intro ⟨h1, h2, h3⟩
          simp only [List.map_cons, List.nodup_cons] at h2
          refine ⟨fun it hit => h1 it (List.mem_cons_of_mem _ hit), h2.2, ?_⟩
          intro i hi
          simp only [List.mem_cons, not_or]
          constructor
          · intro hc
            rw [hc] at hi
            exact h2.1 hi
          · exact h3 i (by simp [hi])
    · rw [if_pos (by simpa using hmiss)]
      constructor
      · intro hc; exact absurd hc (by simp)
      · intro ⟨h1, _, _⟩
        exact absurd (h1 item (by simp)) hmiss

/-! ### Claim C5 -/

/-- Claim C5: the loader succeeds — returning exactly the input records —
if and only if every record has all six required fields and the record ids
are pairwise distinct; on any violation it raises a fatal validation error
(Except.error), loading nothing. -/
theorem load_problems_spec (items : List RawItem) :
    (load_problems items).toOption =
      if (∀ item ∈ items, missingKeys item = []) ∧
          (items.map (fun item => item.id?.getD "")).Nodup
      then some items else none := by
  unfold load_problems
  by_cases h : (∀ item ∈ items, missingKeys item = []) ∧
      (items.map (fun item => item.id?.getD "")).Nodup
  · rw [if_pos h]
    have hok : validateItems [] items = Except.ok () :=
      (validateItems_ok_iff items []).mpr ⟨h.1, h.2, by simp⟩
    rw [hok]
    rfl
  · rw [if_neg h]
    rcases hv : validateItems [] items with e | u
    · rfl
    · exfalso
      obtain ⟨h1, h2, _⟩ := (validateItems_ok_iff items []).mp (by rw [hv])
      exact h ⟨h1, h2⟩

/-! ## app.py : structured filters -/

/-- Embeds `match_filters` of app.py: a non-empty `source_filter` requires
exact equality on the record source; non-empty `tags_filter` and
`concepts_filter` require set inclusion in the record tags / concepts
(Python `set(...).issubset`, which is list-membership inclusion). -/
def match_filters (problem : Problem) (source_filter : String)
    (tags_filter concepts_filter : List String) : Bool :=
  if source_filter ≠ "" ∧ problem.source ≠ source_filter then false
  else if tags_filter ≠ [] ∧ ¬ (tags_filter ⊆ problem.tags) then false
  else if concepts_filter ≠ [] ∧ ¬ (concepts_filter ⊆ problem.concepts) then false
  else true

/-! ### Claim C4 -/

/-- Claim C4: a record survives filtering iff the source filter is empty or
matches the record source exactly, the tags filter is a subset of the
record tag set, and the concepts filter is a subset of the record concept
set. -/
theorem match_filters_iff (problem : Problem) (source_filter : String)
    (tags_filter concepts_filter : List String) :
    match_filters problem source_filter tags_filter concepts_filter = true ↔
      (source_filter = "" ∨ problem.source = source_filter) ∧
      tags_filter ⊆ problem.tags ∧ concepts_filter ⊆ problem.concepts := by
  unfold match_filters
  by_cases h1 : source_filter ≠ "" ∧ problem.source ≠ source_filter
  · rw [if_pos h1]
    simp only [Bool.false_eq_true, false_iff]
    intro ⟨hs, _, _⟩
    rcases hs with hs | hs
    · exact h1.1 hs
    · exact h1.2 hs
  · rw [if_neg h1]
    by_cases h2 : tags_filter ≠ [] ∧ ¬ (tags_filter ⊆ problem.tags)
    · rw [if_pos h2]
      simp only [Bool.false_eq_true, false_iff]
      intro ⟨_, ht, _⟩
      exact h2.2 ht
    · rw [if_neg h2]
      by_cases h3 : concepts_filter ≠ [] ∧ ¬ (concepts_filter ⊆ problem.concepts)
      · rw [if_pos h3]
        simp only [Bool.false_eq_true, false_iff]
        intro ⟨_, _, hc⟩
        exact h3.2 hc
      · rw [if_neg h3]
        simp only [true_iff]
        push_neg at h1 h2 h3
        refine ⟨?_, ?_, ?_⟩
        · by_cases hs : source_filter = ""
          · exact Or.inl hs
          · exact Or.inr (h1 hs)
        · by_cases ht : tags_filter = []
          · rw [ht]; exact List.nil_subset _
          · exact h2 ht
        · by_cases hc : concepts_filter = []
          · rw [hc]; exact List.nil_subset _
          · exact h3 hc

/-! ## app.py : the search index -/

/-- Embeds `build_search_text` of app.py: the space-join of title,
statement, space-joined tags, space-joined concepts, and source. -/
def build_search_text (problem : Problem) : String :=
  String.intercalate " " [problem.title, problem.statement,
    String.intercalate " " problem.tags,
    String.intercalate " " problem.concepts,
    problem.source]

/-- Embeds `build_search_index` of app.py: one `(id, vector)` pair per
corpus record, in corpus order. -/
def build_search_index (problems : List Problem) : List (String × SparseVec) :=
  problems.map (fun item => (item.id, vectorize_text (build_search_text item)))

theorem intercalate_five (a b c d e : String) :
    String.intercalate " " [a, b, c, d, e]
      = a ++ " " ++ b ++ " " ++ c ++ " " ++ d ++ " " ++ e := rfl

/-! ### Claim C10 -/

/-- Claim C10: the sparse vector stored in the search index for every
record is `vectorize_text` applied to the space-joined concatenation of the
record title, statement, tags, concepts and source — the index covers the
metadata fields, not only the statement text. -/
theorem build_search_index_spec (problems : List Problem) :
    build_search_index problems = problems.map (fun p =>
      (p.id, vectorize_text (p.title ++ " " ++ p.statement ++ " " ++
        String.intercalate " " p.tags ++ " " ++
        String.intercalate " " p.concepts ++ " " ++ p.source))) := by
  unfold build_search_index build_search_text
  apply List.map_congr_left
  intro p _
  rw [intercalate_five]

/-! ## app.py : search -/

/-- Embeds the constant `MAX_RESULTS = 10` of app.py. -/
def MAX_RESULTS : ℕ := 10

/-- Scored search result as assembled by `search_problems`.  The score
field holds the exact value of the float the source stores (the rounded
cosine, or the literal 1.0 in pure-filter mode), which is rational. -/
structure ScoredItem where
  id : String
  title : String
  tags : List String
  source : String
  score : ℚ
deriving DecidableEq, Repr

/-- Embeds the module dictionary `PROBLEM_BY_ID = {item["id"]: item}` of
app.py together with its lookup: a Python dict comprehension keeps the last
record for a repeated key. -/
def problemById (problems : List Problem) (i : String) : Option Problem :=
  problems.foldl (fun acc item => if item.id = i then some item else acc) none

/-- Floor of `a / sqrt T` (for `T > 0`), computed on naturals. -/
def floorDivSqrt (a T : ℕ) : ℕ := Nat.sqrt (a ^ 2 / T)

/-- Round the real number `a / sqrt T` to the nearest integer, ties to
even: the semantics of Python `round` on the exact real score value. -/
def roundDivSqrt (a T : ℕ) : ℕ :=
  let n := floorDivSqrt a T
  if (2 * a) ^ 2 < ((2 * n + 1) ^ 2) * T then n
  else if (2 * a) ^ 2 = ((2 * n + 1) ^ 2) * T then (if n % 2 = 0 then n else n + 1)
  else n + 1

/-- Embeds `round(float(score), 6)` of `search_problems` on the exact
score value `d / sqrt T`, where `d` is the cosine accumulation over the
raw counts and `T` the product of the two squared norms: round half-even
at six decimal places. -/
def roundScore6 (d T : ℕ) : ℚ := (roundDivSqrt (1000000 * d) T : ℚ) / 1000000

/-- The body of the scoring loop of `search_problems` for one index entry:
dictionary lookup of the record, the structured filters, cosine scoring,
the non-positive-score discard, and the result record.  Since the real
score of a non-empty query vector is `d / sqrt T` with natural `d` and
`T`, the source's test `score <= 0` holds exactly when `d = 0`, and
`round(float(score), 6)` is `roundScore6 d T` (and `round(1.0, 6) = 1.0`
in pure-filter mode). -/
def scoreEntry (problems : List Problem) (query_vec : SparseVec)
    (use_vector : Bool) (source_filter : String)
    (tags_filter concepts_filter : List String)
    (entry : String × SparseVec) : Option ScoredItem :=
  match problemById problems entry.1 with
  | none => none
  | some problem =>
    if ¬ match_filters problem source_filter tags_filter concepts_filter then none
    else
      let d : ℕ := cosine_similarity query_vec.counts entry.2.counts
      if use_vector = true ∧ d = 0 then none
      else some { id := problem.id, title := problem.title,
                  tags := problem.tags, source := problem.source,
                  score := if use_vector = true
                    then roundScore6 d (query_vec.normSq * entry.2.normSq)
                    else 1 }

/-- Embeds `search_problems` of app.py over an explicit corpus (the module
globals `PROBLEMS` / `PROBLEM_BY_ID` / `SEARCH_INDEX` are all built from
the loaded corpus): vectorize the query, score every index entry through
the filters, sort stably by descending score (Python `list.sort` with
`reverse=True` is stable), truncate to `MAX_RESULTS`. -/
def search_problems (problems : List Problem) (query : String)
    (source_filter : String) (tags_filter concepts_filter : List String) :
    List ScoredItem :=
  let query_vec := vectorize_text query
  let use_vector := !query_vec.counts.isEmpty
  let scored := (build_search_index problems).filterMap
    (scoreEntry problems query_vec use_vector source_filter tags_filter concepts_filter)
  (scored.mergeSort (fun a b => decide (b.score ≤ a.score))).take MAX_RESULTS

/-! ### Supporting lemmas about the search pipeline -/

theorem foldl_problemById_of_not_mem (l : List Problem) (i : String)
    (acc : Option Problem) (h : ∀ q ∈ l, q.id ≠ i) :
    l.foldl (fun acc item => if item.id = i then some item else acc) acc = acc := by
  induction l generalizing acc with
  | nil => rfl
  | cons q rest ih =>
    rw [List.foldl_cons, if_neg (h q (by simp))]
    exact ih acc (fun r hr => h r (List.mem_cons_of_mem _ hr))

theorem problemById_of_nodup (problems : List Problem)
    (h : (problems.map Problem.id).Nodup) (p : Problem) (hp : p ∈ problems) :
    problemById problems p.id = some p := by
  obtain ⟨l1, l2, rfl⟩ := List.append_of_mem hp
  have h2 : ∀ q ∈ l2, q.id ≠ p.id := by
    rw [List.map_append, List.map_cons] at h
    have := (List.nodup_append.mp h).2.1
    rw [List.nodup_cons] at this
    intro q hq hc
    apply this.1
    have : q.id ∈ l2.map Problem.id := List.mem_map_of_mem Problem.id hq
    rwa [hc] at this
  unfold problemById
  rw [List.foldl_append, List.foldl_cons, if_pos rfl]
  exact foldl_problemById_of_not_mem l2 p.id (some p) h2

theorem bumpBucket_keys (l : List (ℕ × ℕ)) (idx : ℕ) :
    (bumpBucket l idx).map Prod.fst =
      if idx ∈ l.map Prod.fst then l.map Prod.fst else l.map Prod.fst ++ [idx] := by
  induction l with
  | nil => simp [bumpBucket]
  | cons p rest ih =>
    obtain ⟨j, c⟩ := p
    by_cases h : j = idx
    · subst h
      simp [bumpBucket]
    · simp only [bumpBucket, if_neg h, List.map_cons, ih]
      have : (idx ∈ j :: rest.map Prod.fst) ↔ (idx ∈ rest.map Prod.fst) := by
        simp [List.mem_cons, Ne.symm h]
      by_cases hmem : idx ∈ rest.map Prod.fst
      · simp [hmem, this]
      · simp [hmem, this]

theorem bumpBucket_keys_nodup (l : List (ℕ × ℕ)) (idx : ℕ)
    (h : (l.map Prod.fst).Nodup) : ((bumpBucket l idx).map Prod.fst).Nodup := by
  rw [bumpBucket_keys]
  by_cases hmem : idx ∈ l.map Prod.fst
  · rwa [if_pos hmem]
  · rw [if_neg hmem]
    rw [List.nodup_append]
    refine ⟨h, by simp, ?_⟩
    intro a ha hb
    rw [List.mem_singleton] at hb
    rw [hb] at ha
    exact hmem ha

theorem vectorize_counts_keys_nodup (t : String) :
    ((vectorize_counts t).map Prod.fst).Nodup := by
  unfold vectorize_counts
  generalize char_ngrams (normalize_text t).data 2 = grams
  induction grams using List.reverseRecOn with
  | nil => simp
  | append_singleton gs g ih =>
    rw [List.foldl_append, List.foldl_cons, List.foldl_nil]
    exact bumpBucket_keys_nodup _ _ ih

theorem sharedSum_nil_right [NonUnitalCommSemiring α] (a : List (ℕ × α)) :
    sharedSum a ([] : List (ℕ × α)) = 0 := by
  unfold sharedSum
  have : ∀ p ∈ a, p.2 * dictGet ([] : List (ℕ × α)) p.1 = 0 := by
    intro p _
    simp [dictGet, List.find?]
  rw [List.map_congr_left this]
  simp

/-- The `d` used by `scoreEntry` equals `sharedSum` of the two raw count
lists, whichever of the two is shorter (both have pairwise-distinct keys
whenever they come out of `vectorize_text`). -/
theorem cosine_similarity_counts_eq (a b : List (ℕ × ℕ))
    (ha : (a.map Prod.fst).Nodup) (hb : (b.map Prod.fst).Nodup) :
    cosine_similarity a b = sharedSum a b := by
  unfold cosine_similarity
  split
  · exact (sharedSum_comm a b ha hb).symm
  · rfl

/-- Per-record form of the scoring loop body with the dictionary lookup
resolved; proven equal to the loop over the prebuilt index whenever the
corpus ids are pairwise distinct (which the loader guarantees). -/
def scoreRecord (query_vec : SparseVec) (use_vector : Bool)
    (source_filter : String) (tags_filter concepts_filter : List String)
    (p : Problem) : Option ScoredItem :=
  if ¬ match_filters p source_filter tags_filter concepts_filter then none
  else
    let d : ℕ := cosine_similarity query_vec.counts
      (vectorize_text (build_search_text p)).counts
    if use_vector = true ∧ d = 0 then none
    else some { id := p.id, title := p.title, tags := p.tags, source := p.source,
                score := if use_vector = true
                  then roundScore6 d
                    (query_vec.normSq * (vectorize_text (build_search_text p)).normSq)
                  else 1 }

theorem scored_list_eq (problems : List Problem) (query_vec : SparseVec)
    (use_vector : Bool) (sf : String) (tf cf : List String)
    (hids : (problems.map Problem.id).Nodup) :
    (build_search_index problems).filterMap
        (scoreEntry problems query_vec use_vector sf tf cf)
      = problems.filterMap (scoreRecord query_vec use_vector sf tf cf) := by
  unfold build_search_index
  rw [List.filterMap_map]
  apply List.filterMap_congr
  intro p hp
  show scoreEntry problems query_vec use_vector sf tf cf
    (p.id, vectorize_text (build_search_text p)) = _
  unfold scoreEntry scoreRecord
  rw [problemById_of_nodup problems hids p hp]

theorem filterMap_scoreRecord_false (problems : List Problem)
    (query_vec : SparseVec) (sf : String) (tf cf : List String) :
    problems.filterMap (scoreRecord query_vec false sf tf cf)
      = (problems.filter (fun p => match_filters p sf tf cf)).map
          (fun p => { id := p.id, title := p.title, tags := p.tags,
                      source := p.source, score := (1 : ℚ) }) := by
  induction problems with
  | nil => rfl
  | cons p rest ih =>
    rw [List.filterMap_cons, List.filter_cons]
    by_cases hm : match_filters p sf tf cf = true
    · have hrec : scoreRecord query_vec false sf tf cf p
          = some { id := p.id, title := p.title, tags := p.tags,
                   source := p.source, score := (1 : ℚ) } := by
        unfold scoreRecord
        rw [if_neg (by simp [hm])]
        simp
      rw [hrec, if_pos hm, List.map_cons, ih]
    · have hrec : scoreRecord query_vec false sf tf cf p = none := by
        unfold scoreRecord
        rw [if_pos (by simpa using hm)]
      rw [hrec, if_neg hm, ih]

/-! ### Claim C2 -/

/-- Claim C2: for every corpus (with distinct record ids, as the loader
guarantees) and every filter setting, a query whose vector is empty (for
example the empty string) makes the search return every record passing the
filters, each scored exactly 1.0, in original corpus order, truncated to
the first `MAX_RESULTS = 10`; in particular the result is non-empty
whenever any record passes the filters. -/
theorem search_empty_query (problems : List Problem)
    (query source_filter : String) (tags_filter concepts_filter : List String)
    (hids : (problems.map Problem.id).Nodup)
    (hq : (vectorize_text query).counts = []) :
    search_problems problems query source_filter tags_filter concepts_filter
      = ((problems.filter
            (fun p => match_filters p source_filter tags_filter concepts_filter)).map
          (fun p => { id := p.id, title := p.title, tags := p.tags,
                      source := p.source, score := (1 : ℚ) })).take MAX_RESULTS ∧
    ((∃ p ∈ problems,
        match_filters p source_filter tags_filter concepts_filter = true) →
      search_problems problems query source_filter tags_filter concepts_filter
        ≠ []) := by
  have huv : (!(vectorize_text query).counts.isEmpty) = false := by
    rw [hq]
    rfl
  have hmain : search_problems problems query source_filter tags_filter concepts_filter
      = ((problems.filter
            (fun p => match_filters p source_filter tags_filter concepts_filter)).map
          (fun p => { id := p.id, title := p.title, tags := p.tags,
                      source := p.source, score := (1 : ℚ) })).take MAX_RESULTS := by
    unfold search_problems
    dsimp only
    rw [huv,
      scored_list_eq problems (vectorize_text query) false source_filter
        tags_filter concepts_filter hids,
      filterMap_scoreRecord_false problems (vectorize_text query) source_filter
        tags_filter concepts_filter]
    rw [List.mergeSort_of_sorted]
    apply List.pairwise_of_forall_mem_list
    intro a ha b hb
    have hsa : a.score = 1 := by
      obtain ⟨p, _, rfl⟩ := List.mem_map.mp ha
      rfl
    have hsb : b.score = 1 := by
      obtain ⟨p, _, rfl⟩ := List.mem_map.mp hb
      rfl
    rw [hsa, hsb]
    simp
  refine ⟨hmain, ?_⟩
  intro ⟨p, hp, hpass⟩
  rw [hmain]
  intro hc
  rw [List.take_eq_nil_iff] at hc
  rcases hc with hc | hc
  · exact absurd hc (by decide)
  · rw [List.map_eq_nil_iff] at hc
    have : p ∈ problems.filter
        (fun p => match_filters p source_filter tags_filter concepts_filter) :=
      List.mem_filter.mpr ⟨hp, hpass⟩
    rw [hc] at this
    exact absurd this (List.not_mem_nil p)

/-- Witness for Claim C2: a one-record corpus queried with the empty
string. -/
theorem search_empty_query_witness :
    ((([⟨"q1", "T", "S", ["t"], ["c"], "src"⟩] : List Problem).map Problem.id).Nodup ∧
      (vectorize_text "").counts = []) ∧
    search_problems [⟨"q1", "T", "S", ["t"], ["c"], "src"⟩] "" "" [] []
      = ((([⟨"q1", "T", "S", ["t"], ["c"], "src"⟩] : List Problem).filter
            (fun p => match_filters p "" [] [])).map
          (fun p => { id := p.id, title := p.title, tags := p.tags,
                      source := p.source, score := (1 : ℚ) })).take MAX_RESULTS :=
  ⟨⟨by decide, by decide⟩,
    (search_empty_query [⟨"q1", "T", "S", ["t"], ["c"], "src"⟩] "" "" [] []
      (by decide) (by decide)).1⟩

/-! ### Real-number semantics of the scores -/

theorem dictGet_map_div (b : List (ℕ × ℕ)) (y : ℝ) (k : ℕ) :
    dictGet (b.map (fun e => (e.1, (e.2 : ℝ) / y))) k = ((dictGet b k : ℕ) : ℝ) / y := by
  unfold dictGet
  rw [List.find?_map]
  have hpred : ((fun p : ℕ × ℝ => p.1 == k) ∘ (fun e : ℕ × ℕ => (e.1, (e.2 : ℝ) / y)))
      = (fun p : ℕ × ℕ => p.1 == k) := rfl
  rw [hpred]
  cases h : b.find? (fun p => p.1 == k) with
  | none => simp
  | some e => simp

theorem sharedSum_map_div (a b : List (ℕ × ℕ)) (x y : ℝ) :
    sharedSum (a.map (fun e => (e.1, (e.2 : ℝ) / x)))
        (b.map (fun e => (e.1, (e.2 : ℝ) / y)))
      = ((sharedSum a b : ℕ) : ℝ) / (x * y) := by
  unfold sharedSum
  rw [List.map_map]
  have hpt : ∀ e ∈ a,
      ((fun p : ℕ × ℝ => p.2 * dictGet (b.map (fun e => (e.1, (e.2 : ℝ) / y))) p.1)
        ∘ (fun e : ℕ × ℕ => (e.1, (e.2 : ℝ) / x))) e
      = ((e.2 * dictGet b e.1 : ℕ) : ℝ) * (x * y)⁻¹ := by
    intro e _
    simp only [Function.comp_apply]
    rw [dictGet_map_div, div_mul_div_comm, div_eq_mul_inv]
    push_cast
    ring
  rw [List.map_congr_left hpt, List.sum_map_mul_right, div_eq_mul_inv]
  congr 1
  rw [Nat.cast_list_sum, List.map_map]
  apply congrArg
  apply List.map_congr_left
  intro e _
  simp

theorem map_fst_map_weights (l : List (ℕ × ℕ)) (f : ℕ × ℕ → ℝ) :
    ((l.map (fun e => (e.1, f e))).map Prod.fst) = l.map Prod.fst := by
  rw [List.map_map]
  rfl

/-- The cosine similarity of the two real-weight vectors represented by
two `vectorize_text` outputs equals the natural cosine accumulation over
the raw counts divided by the product of the two Euclidean norms. -/
theorem real_cosine_eq (s t : String) :
    cosine_similarity
        ((vectorize_text s).counts.map
          (fun e => (e.1, (e.2 : ℝ) / Real.sqrt ((vectorize_text s).normSq))))
        ((vectorize_text t).counts.map
          (fun e => (e.1, (e.2 : ℝ) / Real.sqrt ((vectorize_text t).normSq))))
      = ((cosine_similarity (vectorize_text s).counts (vectorize_text t).counts : ℕ) : ℝ)
          / (Real.sqrt ((vectorize_text s).normSq) * Real.sqrt ((vectorize_text t).normSq)) := by
  have hns : (((vectorize_text s).counts).map Prod.fst).Nodup := by
    show ((vectorize_counts s).map Prod.fst).Nodup
    exact vectorize_counts_keys_nodup s
  have hnt : (((vectorize_text t).counts).map Prod.fst).Nodup := by
    show ((vectorize_counts t).map Prod.fst).Nodup
    exact vectorize_counts_keys_nodup t
  have hks : (((vectorize_text s).counts.map
      (fun e => (e.1, (e.2 : ℝ) / Real.sqrt ((vectorize_text s).normSq)))).map Prod.fst).Nodup := by
    rw [map_fst_map_weights]
    exact hns
  have hkt : (((vectorize_text t).counts.map
      (fun e => (e.1, (e.2 : ℝ) / Real.sqrt ((vectorize_text t).normSq)))).map Prod.fst).Nodup := by
    rw [map_fst_map_weights]
    exact hnt
  rw [cosine_similarity_counts_eq _ _ hns hnt]
  unfold cosine_similarity
  split
  · rw [sharedSum_comm _ _ hkt hks, sharedSum_map_div]
  · rw [sharedSum_map_div]

theorem sharedSum_nat_ne_zero_right (a b : List (ℕ × ℕ))
    (h : cosine_similarity a b ≠ 0) : b ≠ [] := by
  intro hb
  apply h
  rw [hb]
  unfold cosine_similarity
  split
  · rfl
  · exact sharedSum_nil_right a

/-- Strict positivity of the real cosine score for a record that survives
the non-positive-score discard. -/
theorem real_cosine_pos (s t : String)
    (hs : (vectorize_text s).counts ≠ [])
    (hd : cosine_similarity (vectorize_text s).counts (vectorize_text t).counts ≠ 0) :
    0 < cosine_similarity
        ((vectorize_text s).counts.map
          (fun e => (e.1, (e.2 : ℝ) / Real.sqrt ((vectorize_text s).normSq))))
        ((vectorize_text t).counts.map
          (fun e => (e.1, (e.2 : ℝ) / Real.sqrt ((vectorize_text t).normSq)))) := by
  rw [real_cosine_eq]
  have ht : (vectorize_text t).counts ≠ [] := sharedSum_nat_ne_zero_right _ _ hd
  have hSs : 1 ≤ (vectorize_text s).normSq := vectorize_normSq_pos s hs
  have hSt : 1 ≤ (vectorize_text t).normSq := vectorize_normSq_pos t ht
  apply div_pos
  · exact_mod_cast Nat.pos_of_ne_zero hd
  · apply mul_pos
    · exact Real.sqrt_pos.mpr (by exact_mod_cast hSs)
    · exact Real.sqrt_pos.mpr (by exact_mod_cast hSt)

/-! ### Order-related lemmas for the sorted, truncated result -/

theorem scoreRecord_some_elim (query_vec : SparseVec) (sf : String)
    (tf cf : List String) (p : Problem) (x : ScoredItem)
    (h : scoreRecord query_vec true sf tf cf p = some x) :
    match_filters p sf tf cf = true ∧
    cosine_similarity query_vec.counts (vectorize_text (build_search_text p)).counts ≠ 0 ∧
    x = { id := p.id, title := p.title, tags := p.tags, source := p.source,
          score := roundScore6
            (cosine_similarity query_vec.counts (vectorize_text (build_search_text p)).counts)
            (query_vec.normSq * (vectorize_text (build_search_text p)).normSq) } := by
  unfold scoreRecord at h
  by_cases hm : match_filters p sf tf cf = true
  · rw [if_neg (by simp [hm])] at h
    by_cases hd : cosine_similarity query_vec.counts
        (vectorize_text (build_search_text p)).counts = 0
    · rw [if_pos ⟨rfl, hd⟩] at h
      exact absurd h (by simp)
    · rw [if_neg (by simp [hd])] at h
      simp only [Option.some_inj] at h
      refine ⟨hm, hd, ?_⟩
      rw [← h]
      simp
  · rw [if_pos (by simpa using hm)] at h
    exact absurd h (by simp)

theorem mem_filterMap_scoreRecord_id (problems : List Problem)
    (F : Problem → Option ScoredItem)
    (hF : ∀ p x, F p = some x → x.id = p.id)
    (x : ScoredItem) (hx : x ∈ problems.filterMap F) :
    x.id ∈ problems.map Problem.id := by
  obtain ⟨p, hp, hpx⟩ := List.mem_filterMap.mp hx
  rw [hF p x hpx]
  exact List.mem_map_of_mem Problem.id hp

theorem filterMap_scoreRecord_ids_nodup (problems : List Problem)
    (F : Problem → Option ScoredItem)
    (hF : ∀ p x, F p = some x → x.id = p.id)
    (hids : (problems.map Problem.id).Nodup) :
    ((problems.filterMap F).map ScoredItem.id).Nodup := by
  induction problems with
  | nil => simp
  | cons p rest ih =>
    rw [List.map_cons, List.nodup_cons] at hids
    rw [List.filterMap_cons]
    cases hFp : F p with
    | none => exact ih hids.2
    | some z =>
      rw [List.map_cons, List.nodup_cons]
      refine ⟨?_, ih hids.2⟩
      intro hc
      apply hids.1
      obtain ⟨w, hw, hwz⟩ := List.mem_map.mp hc
      have : w.id ∈ rest.map Problem.id :=
        mem_filterMap_scoreRecord_id rest F hF w hw
      rw [hwz, hF p z hFp] at this
      exact this

theorem pair_mem_sublist (l : List α) (x y : α) (hx : x ∈ l) (hy : y ∈ l)
    (hne : x ≠ y) : [x, y] <+ l ∨ [y, x] <+ l := by
  induction l with
  | nil => exact absurd hx (List.not_mem_nil x)
  | cons a t ih =>
    by_cases hxa : x = a
    · left
      rw [← hxa]
      apply List.Sublist.cons₂
      rw [List.singleton_sublist]
      rcases List.mem_cons.mp hy with h | h
      · exact absurd (h.trans hxa.symm).symm hne
      · exact h
    · by_cases hya : y = a
      · right
        rw [← hya]
        apply List.Sublist.cons₂
        rw [List.singleton_sublist]
        rcases List.mem_cons.mp hx with h | h
        · exact absurd (h.trans hya.symm) hne
        · exact h
      · rcases ih (List.mem_of_ne_of_mem hxa hx) (List.mem_of_ne_of_mem hya hy) with h | h
        · exact Or.inl (h.cons a)
        · exact Or.inr (h.cons a)

/-- In a duplicate-free list, the two members of an embedded pair occur in
the pair's order: any position of the first is before any position of the
second. -/
theorem pair_sublist_get_lt (l : List α) (hnd : l.Nodup) (x y : α)
    (hs : [x, y] <+ l) :
    ∀ i j, ∀ hi : i < l.length, ∀ hj : j < l.length,
      l.get ⟨i, hi⟩ = x → l.get ⟨j, hj⟩ = y → i < j := by
  induction l with
  | nil => intro i j hi _ _ _; exact absurd hi (by simp)
  | cons a t ih =>
    rw [List.nodup_cons] at hnd
    cases hs with
    | cons _ hs' =>
      have hx : x ∈ t := hs'.subset (by simp)
      have hy : y ∈ t := hs'.subset (by simp)
      intro i j hi hj hgx hgy
      match i, j with
      | 0, _ =>
        exfalso
        apply hnd.1
        rw [List.get_eq_getElem, List.getElem_cons_zero] at hgx
        rw [hgx]
        exact hx
      | i2 + 1, 0 =>
        exfalso
        apply hnd.1
        rw [List.get_eq_getElem, List.getElem_cons_zero] at hgy
        rw [hgy]
        exact hy
      | i' + 1, j' + 1 =>
        have hi' : i' < t.length := by simpa using hi
        have hj' : j' < t.length := by simpa using hj
        have hgx' : t.get ⟨i', hi'⟩ = x := by
          rw [List.get_eq_getElem] at hgx ⊢
          rw [← hgx]
          simp
        have hgy' : t.get ⟨j', hj'⟩ = y := by
          rw [List.get_eq_getElem] at hgy ⊢
          rw [← hgy]
          simp
        have := ih hnd.2 hs' i' j' hi' hj' hgx' hgy'
        omega
    | cons₂ _ hs' =>
      have hy : y ∈ t := by
        have : y ∈ [y] := by simp
        exact hs'.subset this
      intro i j hi hj hgx hgy
      match i, j with
      | 0, 0 =>
        exfalso
        rw [List.get_eq_getElem, List.getElem_cons_zero] at hgx hgy
        apply hnd.1
        rw [hgy]
        exact hy
      | 0, j' + 1 => omega
      | i' + 1, _ =>
        exfalso
        apply hnd.1
        have hi' : i' < t.length := by simpa using hi
        rw [List.get_eq_getElem, List.getElem_cons_succ] at hgx
        rw [← hgx]
        exact List.getElem_mem hi'

/-- Items of the scored list occur in corpus order, measured by the index
of the record with the item's id. -/
theorem pair_sublist_findIdx (problems : List Problem)
    (F : Problem → Option ScoredItem)
    (hF : ∀ p x, F p = some x → x.id = p.id)
    (hids : (problems.map Problem.id).Nodup) (x y : ScoredItem)
    (h : [x, y] <+ problems.filterMap F) :
    problems.findIdx (fun p => p.id == x.id)
      < problems.findIdx (fun p => p.id == y.id) := by
  induction problems with
  | nil => exact absurd (List.sublist_nil.mp h) (by simp)
  | cons p rest ih =>
    rw [List.map_cons, List.nodup_cons] at hids
    have hne_of_mem : ∀ z : ScoredItem, z ∈ rest.filterMap F →
        (p.id == z.id) = false := by
      intro z hz
      have : z.id ∈ rest.map Problem.id :=
        mem_filterMap_scoreRecord_id rest F hF z hz
      simp only [beq_eq_false_iff_ne, ne_eq]
      intro hc
      rw [hc] at hids
      exact hids.1 this
    rw [List.filterMap_cons] at h
    cases hFp : F p with
    | none =>
      rw [hFp] at h
      have hx : x ∈ rest.filterMap F := h.subset (by simp)
      have hy : y ∈ rest.filterMap F := h.subset (by simp)
      rw [List.findIdx_cons, List.findIdx_cons, hne_of_mem x hx, hne_of_mem y hy]
      simp only [cond_false]
      have := ih hids.2 h
      omega
    | some z =>
      rw [hFp] at h
      cases h with
      | cons _ h' =>
        have hx : x ∈ rest.filterMap F := h'.subset (by simp)
        have hy : y ∈ rest.filterMap F := h'.subset (by simp)
        rw [List.findIdx_cons, List.findIdx_cons, hne_of_mem x hx, hne_of_mem y hy]
        simp only [cond_false]
        have := ih hids.2 h'
        omega
      | cons₂ _ h' =>
        have hy : y ∈ rest.filterMap F := by
          have : y ∈ [y] := by simp
          exact h'.subset this
        rw [List.findIdx_cons, List.findIdx_cons, hne_of_mem y hy]
        have hxz : (p.id == x.id) = true := by
          simp only [beq_iff_eq]
          exact (hF p x hFp).symm
        rw [hxz]
        simp

/-! ### Claim C3 -/

/-- Claim C3: for every corpus (with distinct record ids, as the loader
guarantees) and every query whose vector is non-empty, the search returns
at most `MAX_RESULTS = 10` items; only items built from corpus records that
pass the filters and whose real cosine score (the cosine of the two
normalized real-weight vectors) is strictly positive; the returned scores
are in descending order; and items with equal scores appear in original
corpus order (stable sort). -/
theorem search_vector_query (problems : List Problem)
    (query source_filter : String) (tags_filter concepts_filter : List String)
    (hids : (problems.map Problem.id).Nodup)
    (hq : (vectorize_text query).counts ≠ []) :
    (search_problems problems query source_filter tags_filter concepts_filter).length
        ≤ MAX_RESULTS ∧
    (search_problems problems query source_filter tags_filter concepts_filter).Pairwise
      (fun a b => b.score ≤ a.score) ∧
    (∀ x ∈ search_problems problems query source_filter tags_filter concepts_filter,
      ∃ p ∈ problems,
        x.id = p.id ∧ x.title = p.title ∧ x.tags = p.tags ∧ x.source = p.source ∧
        match_filters p source_filter tags_filter concepts_filter = true ∧
        0 < cosine_similarity
          ((vectorize_text query).counts.map
            (fun e => (e.1, (e.2 : ℝ) / Real.sqrt ((vectorize_text query).normSq))))
          ((vectorize_text (build_search_text p)).counts.map
            (fun e => (e.1, (e.2 : ℝ) /
              Real.sqrt ((vectorize_text (build_search_text p)).normSq))))) ∧
    (∀ i j : ℕ,
      ∀ hi : i < (search_problems problems query source_filter tags_filter concepts_filter).length,
      ∀ hj : j < (search_problems problems query source_filter tags_filter concepts_filter).length,
      i < j →
      ((search_problems problems query source_filter tags_filter concepts_filter).get
          ⟨i, hi⟩).score
        = ((search_problems problems query source_filter tags_filter concepts_filter).get
          ⟨j, hj⟩).score →
      problems.findIdx (fun p => p.id ==
          ((search_problems problems query source_filter tags_filter concepts_filter).get
            ⟨i, hi⟩).id)
        < problems.findIdx (fun p => p.id ==
          ((search_problems problems query source_filter tags_filter concepts_filter).get
            ⟨j, hj⟩).id)) := by
  have huv : (!(vectorize_text query).counts.isEmpty) = true := by
    simp [List.isEmpty_iff, hq]
  have hsearch : search_problems problems query source_filter tags_filter concepts_filter
      = ((problems.filterMap
            (scoreRecord (vectorize_text query) true source_filter tags_filter
              concepts_filter)).mergeSort
          (fun a b => decide (b.score ≤ a.score))).take MAX_RESULTS := by
    unfold search_problems
    dsimp only
    rw [huv, scored_list_eq problems (vectorize_text query) true source_filter
      tags_filter concepts_filter hids]
  set F := scoreRecord (vectorize_text query) true source_filter tags_filter
    concepts_filter with hFdef
  set cmp := fun a b : ScoredItem => decide (b.score ≤ a.score) with hcmpdef
  set scored := problems.filterMap F with hscdef
  set L := scored.mergeSort cmp with hLdef
  have hFid : ∀ p x, F p = some x → x.id = p.id := by
    intro p x h
    obtain ⟨_, _, hx⟩ := scoreRecord_some_elim _ _ _ _ p x h
    rw [hx]
  have htrans : ∀ a b c : ScoredItem, cmp a b → cmp b c → cmp a c := by
    intro a b c hab hbc
    simp only [hcmpdef, decide_eq_true_eq] at hab hbc ⊢
    exact le_trans hbc hab
  have htotal : ∀ a b : ScoredItem, cmp a b || cmp b a := by
    intro a b
    simp only [hcmpdef, Bool.or_eq_true, decide_eq_true_eq]
    exact le_total b.score a.score
  have hperm : L.Perm scored := List.mergeSort_perm scored cmp
  have hids_scored : (scored.map ScoredItem.id).Nodup :=
    filterMap_scoreRecord_ids_nodup problems F hFid hids
  have hnd_scored : scored.Nodup := List.Nodup.of_map ScoredItem.id hids_scored
  have hndL : L.Nodup := (List.Perm.nodup_iff hperm).mpr hnd_scored
  have hsortedL : L.Pairwise (fun a b => b.score ≤ a.score) := by
    have := @List.sorted_mergeSort ScoredItem cmp htrans htotal scored
    rw [← hLdef] at this
    exact this.imp (fun h => by
      simpa only [hcmpdef, decide_eq_true_eq] using h)
  refine ⟨?_, ?_, ?_, ?_⟩
  · rw [hsearch, List.length_take]
    exact min_le_left _ _
  · rw [hsearch]
    exact List.Pairwise.sublist (List.take_sublist _ _) hsortedL
  · intro x hx
    rw [hsearch] at hx
    have hxL : x ∈ L := (List.take_sublist _ _).subset hx
    have hxs : x ∈ scored := (List.Perm.mem_iff hperm).mp hxL
    obtain ⟨p, hp, hFpx⟩ := List.mem_filterMap.mp hxs
    obtain ⟨hm, hd, hxeq⟩ := scoreRecord_some_elim _ _ _ _ p x hFpx
    refine ⟨p, hp, by rw [hxeq], by rw [hxeq], by rw [hxeq], by rw [hxeq], hm, ?_⟩
    exact real_cosine_pos query (build_search_text p) hq hd
  · rw [hsearch]
    intro i j hi hj hij hsc
    have hiL : i < L.length := by
      rw [List.length_take] at hi
      exact lt_of_lt_of_le hi (min_le_right _ _)
    have hjL : j < L.length := by
      rw [List.length_take] at hj
      exact lt_of_lt_of_le hj (min_le_right _ _)
    have hgi : (L.take MAX_RESULTS).get ⟨i, hi⟩ = L.get ⟨i, hiL⟩ := by
      simp [List.get_eq_getElem]
    have hgj : (L.take MAX_RESULTS).get ⟨j, hj⟩ = L.get ⟨j, hjL⟩ := by
      simp [List.get_eq_getElem]
    rw [hgi, hgj] at hsc ⊢
    have haL : L.get ⟨i, hiL⟩ ∈ L := by
      rw [List.get_eq_getElem]
      exact List.getElem_mem hiL
    have hbL : L.get ⟨j, hjL⟩ ∈ L := by
      rw [List.get_eq_getElem]
      exact List.getElem_mem hjL
    have has : L.get ⟨i, hiL⟩ ∈ scored := (List.Perm.mem_iff hperm).mp haL
    have hbs : L.get ⟨j, hjL⟩ ∈ scored := (List.Perm.mem_iff hperm).mp hbL
    have hne : L.get ⟨i, hiL⟩ ≠ L.get ⟨j, hjL⟩ := by
      intro hc
      have := (List.Nodup.get_inj_iff hndL).mp hc
      rw [Fin.mk.injEq] at this
      omega
    rcases pair_mem_sublist scored (L.get ⟨i, hiL⟩) (L.get ⟨j, hjL⟩) has hbs hne
      with hpair | hpair
    · exact pair_sublist_findIdx problems F hFid hids _ _ hpair
    · exfalso
      have hcmp : cmp (L.get ⟨j, hjL⟩) (L.get ⟨i, hiL⟩) := by
        simp only [hcmpdef, decide_eq_true_eq]
        exact le_of_eq hsc
      have hLpair : List.Sublist [L.get ⟨j, hjL⟩, L.get ⟨i, hiL⟩] L :=
        List.pair_sublist_mergeSort htrans htotal hcmp hpair
      have := pair_sublist_get_lt L hndL _ _ hLpair j i hjL hiL rfl rfl
      omega

/-- Witness for Claim C3: a one-record corpus and a query sharing text
with the record title. -/
theorem search_vector_query_witness :
    ((([⟨"q1", "title", "state", ["tag"], ["con"], "src"⟩] : List Problem).map
        Problem.id).Nodup ∧
      (vectorize_text "title").counts ≠ []) ∧
    (search_problems [⟨"q1", "title", "state", ["tag"], ["con"], "src"⟩]
        "title" "" [] []).length ≤ MAX_RESULTS :=
  ⟨⟨by decide, by decide⟩,
    (search_vector_query [⟨"q1", "title", "state", ["tag"], ["con"], "src"⟩]
      "title" "" [] [] (by decide) (by decide)).1⟩

/-! ## scripts/extract_pdf_problems.py -/

namespace Extract

/-- Detected question marker (extract_pdf_problems.py): page index, top
vertical coordinate of the matched line, raw line text.  Vertical
coordinates — floats in the source — are modelled as exact rationals. -/
structure Marker where
  page : ℕ
  y0 : ℚ
  text : String
deriving DecidableEq, Repr

/-- Embeds the dataclass `Segment` of extract_pdf_problems.py. -/
structure Segment where
  page : ℕ
  y0 : ℚ
  y1 : ℚ
deriving DecidableEq, Repr

/-- The document geometry read by `build_segments`: `fitz` is an external
library and the function consults only `doc.page_count` and
`doc.load_page(p).rect.height`, so a document is modelled as its list of
page heights (`page_count` is the list length). -/
def pageHeight (doc : List ℚ) (p : ℕ) : ℚ := doc.getD p 0

/-- Default marker used by the total indexing functions of the embedding
(never read on in-range indices). -/
def mdef : Marker := ⟨0, 0, ""⟩

/-- The loop body of `build_segments` for one marker and its optional
successor: same-page interval, or first segment to the page bottom plus
the strictly-between full pages plus the final partial segment; for the
last marker, first segment to the page bottom plus every remaining page of
the document in full. -/
def segmentsFor (doc : List ℚ) (marker : Marker) (next? : Option Marker) :
    List Segment :=
  match next? with
  | some next_marker =>
      if next_marker.page = marker.page then
        [⟨marker.page, marker.y0, next_marker.y0⟩]
      else
        ⟨marker.page, marker.y0, pageHeight doc marker.page⟩ ::
        (((List.range' (marker.page + 1) (next_marker.page - (marker.page + 1))).map
            (fun p => ⟨p, 0, pageHeight doc p⟩)) ++ [⟨next_marker.page, 0, next_marker.y0⟩])
  | none =>
      ⟨marker.page, marker.y0, pageHeight doc marker.page⟩ ::
      ((List.range' (marker.page + 1) (doc.length - (marker.page + 1))).map
        (fun p => ⟨p, 0, pageHeight doc p⟩))

/-- Embeds `build_segments` of extract_pdf_problems.py: the enumerate loop
over the markers, pairing each marker with its computed segments, the
successor marker looked up by index. -/
def build_segments (doc : List ℚ) (markers : List Marker) :
    List (Marker × List Segment) :=
  (List.range markers.length).map (fun idx =>
    (markers.getD idx mdef,
     segmentsFor doc (markers.getD idx mdef) markers[idx + 1]?))

/-- Sort order of the marker list (`markers.sort(key=(page, y0))` in the
detector). -/
def MarkerLE (m1 m2 : Marker) : Prop :=
  m1.page < m2.page ∨ (m1.page = m2.page ∧ m1.y0 ≤ m2.y0)

/-! ### Supporting lemmas for the segment builder -/

theorem getD_range_map {β : Type} (f : ℕ → β) (n i : ℕ) (d : β) (h : i < n) :
    ((List.range n).map f).getD i d = f i := by
  rw [List.getD_eq_getElem?_getD, List.getElem?_map, List.getElem?_range h]
  rfl

theorem build_segments_getD (doc : List ℚ) (markers : List Marker)
    (i : ℕ) (hi : i < markers.length) :
    (build_segments doc markers).getD i (mdef, [])
      = (markers.getD i mdef,
         segmentsFor doc (markers.getD i mdef) markers[i + 1]?) := by
  unfold build_segments
  exact getD_range_map _ markers.length i _ hi

instance : DecidableRel MarkerLE := fun m1 m2 => by
  unfold MarkerLE
  infer_instance

/-! ### Claim C6 -/

/-- Claim C6: for every sorted marker list, (a) if marker `i` and marker
`i+1` lie on the same page, question `i`'s sole segment is
`[y_i, y_{i+1})` on that page; (b) if they lie on different pages the
successor lies on a strictly later page and question `i` owns a first
segment from `y_i` to the bottom of its page, one full-page segment for
every page strictly between the two (the attached membership equivalence
characterizes the page range), and a final segment from the top of marker
`i+1`'s page to `y_{i+1}`; (c) the last question extends from its marker
to the bottom of its page and then owns every remaining page of the
document in full. -/
theorem build_segments_spec (doc : List ℚ) (markers : List Marker)
    (hsorted : markers.Pairwise MarkerLE) :
    (∀ i : ℕ, i + 1 < markers.length →
      (markers.getD (i + 1) mdef).page = (markers.getD i mdef).page →
      (build_segments doc markers).getD i (mdef, [])
        = (markers.getD i mdef,
           [⟨(markers.getD i mdef).page, (markers.getD i mdef).y0,
             (markers.getD (i + 1) mdef).y0⟩])) ∧
    (∀ i : ℕ, i + 1 < markers.length →
      (markers.getD (i + 1) mdef).page ≠ (markers.getD i mdef).page →
      (markers.getD i mdef).page < (markers.getD (i + 1) mdef).page ∧
      (build_segments doc markers).getD i (mdef, [])
        = (markers.getD i mdef,
           ⟨(markers.getD i mdef).page, (markers.getD i mdef).y0,
             pageHeight doc (markers.getD i mdef).page⟩ ::
           (((List.range' ((markers.getD i mdef).page + 1)
               ((markers.getD (i + 1) mdef).page - ((markers.getD i mdef).page + 1))).map
              (fun p => ⟨p, 0, pageHeight doc p⟩))
             ++ [⟨(markers.getD (i + 1) mdef).page, 0,
                  (markers.getD (i + 1) mdef).y0⟩])) ∧
      (∀ p : ℕ,
        p ∈ List.range' ((markers.getD i mdef).page + 1)
            ((markers.getD (i + 1) mdef).page - ((markers.getD i mdef).page + 1))
          ↔ (markers.getD i mdef).page < p ∧ p < (markers.getD (i + 1) mdef).page)) ∧
    (∀ i : ℕ, i + 1 = markers.length →
      (build_segments doc markers).getD i (mdef, [])
        = (markers.getD i mdef,
           ⟨(markers.getD i mdef).page, (markers.getD i mdef).y0,
             pageHeight doc (markers.getD i mdef).page⟩ ::
           ((List.range' ((markers.getD i mdef).page + 1)
              (doc.length - ((markers.getD i mdef).page + 1))).map
             (fun p => ⟨p, 0, pageHeight doc p⟩))) ∧
      (∀ p : ℕ,
        p ∈ List.range' ((markers.getD i mdef).page + 1)
            (doc.length - ((markers.getD i mdef).page + 1))
          ↔ (markers.getD i mdef).page < p ∧ p < doc.length)) := by
  have hnext_some : ∀ i : ℕ, i + 1 < markers.length →
      markers[i + 1]? = some (markers.getD (i + 1) mdef) := by
    intro i hi1
    rw [List.getElem?_eq_getElem hi1, List.getD_eq_getElem markers mdef hi1]
  refine ⟨?_, ?_, ?_⟩
  · intro i hi1 hpage
    rw [build_segments_getD doc markers i (by omega)]
    unfold segmentsFor
    rw [hnext_some i hi1]
    simp only
    rw [if_pos hpage]
  · intro i hi1 hpage
    have hgetDi : markers.getD i mdef = markers.get ⟨i, by omega⟩ := by
      rw [List.get_eq_getElem]
      simp [List.getD_eq_getElem?_getD, List.getElem?_eq_getElem
        (show i < markers.length by omega)]
    have hgetDi1 : markers.getD (i + 1) mdef = markers.get ⟨i + 1, hi1⟩ := by
      rw [List.get_eq_getElem]
      simp [List.getD_eq_getElem?_getD, List.getElem?_eq_getElem hi1]
    have hlt : (markers.getD i mdef).page < (markers.getD (i + 1) mdef).page := by
      have hpw := List.pairwise_iff_get.mp hsorted ⟨i, by omega⟩ ⟨i + 1, hi1⟩
        (by simp [Fin.mk_lt_mk])
      rw [← hgetDi, ← hgetDi1] at hpw
      unfold MarkerLE at hpw
      rcases hpw with h | h
      · exact h
      · exact absurd h.1.symm hpage
    refine ⟨hlt, ?_, ?_⟩
    · rw [build_segments_getD doc markers i (by omega)]
      unfold segmentsFor
      rw [hnext_some i hi1]
      simp only
      rw [if_neg hpage]
    · intro p
      rw [List.mem_range']
      constructor
      · rintro ⟨k, hk, rfl⟩
        omega
      · intro h
        exact ⟨p - ((markers.getD i mdef).page + 1), by omega, by omega⟩
  · intro i hilen
    have hi : i < markers.length := by omega
    have hnone : markers[i + 1]? = none := List.getElem?_eq_none (by omega)
    refine ⟨?_, ?_⟩
    · rw [build_segments_getD doc markers i hi]
      unfold segmentsFor
      rw [hnone]
    · intro p
      rw [List.mem_range']
      constructor
      · rintro ⟨k, hk, rfl⟩
        omega
      · intro h
        exact ⟨p - ((markers.getD i mdef).page + 1), by omega, by omega⟩

/-- Witness for Claim C6: the three-marker example of the specification,
pages `[0, 0, 1]` at `y = [10, 50, 5]`, over a two-page document. -/
theorem build_segments_spec_witness :
    ([⟨0, 10, "Q1"⟩, ⟨0, 50, "Q2"⟩, ⟨1, 5, "Q3"⟩] : List Marker).Pairwise MarkerLE ∧
    (build_segments [100, 90]
        [⟨0, 10, "Q1"⟩, ⟨0, 50, "Q2"⟩, ⟨1, 5, "Q3"⟩]).getD 0 (mdef, [])
      = (⟨0, 10, "Q1"⟩, [⟨0, 10, 50⟩]) := by
  refine ⟨by decide, ?_⟩
  have h := (build_segments_spec [100, 90]
    [⟨0, 10, "Q1"⟩, ⟨0, 50, "Q2"⟩, ⟨1, 5, "Q3"⟩] (by decide)).1 0
    (by decide) (by decide)
  exact h

/-! ### The text normalizer of the extraction script -/

/-- Half-width or full-width decimal digit: the regex character class
`[0-9０-９]` (U+FF10 – U+FF19 are the full-width digits). -/
def isDigitFW (c : Char) : Bool :=
  c.isDigit || (0xFF10 ≤ c.toNat && c.toNat ≤ 0xFF19)

/-- Matcher for the page-number regex `^―[0-9０-９]+―$` (U+2015 horizontal
bar): the greedy `+` is the maximal digit run, which never backtracks here
because the bar is not a digit. -/
def isPageNumberLine (s : List Char) : Bool :=
  match s with
  | [] => false
  | c :: rest =>
      let ds := rest.takeWhile isDigitFW
      c == '―' && !ds.isEmpty && (rest.drop ds.length == ['―'])

/-- Matcher for the folio regex `^（[0-9０-９]+―[0-9０-９]+）$` (full-width
parentheses U+FF08 / U+FF09). -/
def isFolioLine (s : List Char) : Bool :=
  match s with
  | [] => false
  | c :: rest =>
      let d1 := rest.takeWhile isDigitFW
      c == '（' && !d1.isEmpty &&
      (match rest.drop d1.length with
       | [] => false
       | c2 :: rest2 =>
           let d2 := rest2.takeWhile isDigitFW
           c2 == '―' && !d2.isEmpty && (rest2.drop d2.length == ['）']))

/-- The keep test of the line loop of `normalize_text` of
extract_pdf_problems.py: empty lines, page-number lines, folio lines and
the fixed single-glyph exclusion set are dropped. -/
def keepLine (line : String) : Bool :=
  !(line == "") && !isPageNumberLine line.data && !isFolioLine line.data &&
  !(line == "化学" || line == "学" || line == "化")

/-- The cleaned line list accumulated by `normalize_text` of
extract_pdf_problems.py: per-line strip, then the boilerplate drops, order
preserved.  Python `str.splitlines` is modelled as splitting on the
newline character and `str.strip` by `String.trim`; no claim depends on
the more exotic Unicode line separators or space characters. -/
def cleaned_lines (text : String) : List String :=
  ((text.splitOn "\n").map String.trim).filter keepLine

/-- Embeds `normalize_text` of extract_pdf_problems.py. -/
def normalize_text (text : String) : String :=
  String.intercalate "\n" (cleaned_lines text)

/-! ### Supporting lemmas about the line matchers -/

theorem take_takeWhile_length (p : α → Bool) (l : List α) :
    l.take (l.takeWhile p).length = l.takeWhile p := by
  induction l with
  | nil => rfl
  | cons a t ih =>
    by_cases h : p a
    · simp [List.takeWhile_cons, h, ih]
    · simp [List.takeWhile_cons, h]

theorem takeWhile_append_of_forall (p : α → Bool) (ds : List α) (x : α)
    (tail : List α) (hds : ∀ c ∈ ds, p c = true) (hx : p x = false) :
    (ds ++ x :: tail).takeWhile p = ds := by
  induction ds with
  | nil => simp [List.takeWhile_cons, hx]
  | cons a d ih =>
    have ha : p a = true := hds a (by simp)
    simp only [List.cons_append, List.takeWhile_cons, ha, if_pos]
    rw [ih (fun c hc => hds c (by simp [hc]))]

theorem isPageNumberLine_iff (s : List Char) :
    isPageNumberLine s = true ↔
      ∃ ds : List Char, s = '―' :: ds ++ ['―'] ∧ ds ≠ [] ∧
        ∀ c ∈ ds, isDigitFW c = true := by
  constructor
  · intro h
    match s with
    | [] => exact absurd h (by simp [isPageNumberLine])
    | c :: rest =>
      simp only [isPageNumberLine, Bool.and_eq_true, beq_iff_eq,
        Bool.not_eq_true'] at h
      obtain ⟨⟨hc, hemp⟩, hdrop⟩ := h
      set ds := rest.takeWhile isDigitFW with hds
      have hne : ds ≠ [] := by
        intro hc2
        rw [hc2] at hemp
        exact absurd hemp (by simp)
      have htake : rest.take ds.length = ds := by
        rw [hds]
        exact take_takeWhile_length isDigitFW rest
      have hsplit : ds ++ rest.drop ds.length = rest := by
        nth_rewrite 1 [← htake]
        exact List.take_append_drop ds.length rest
      refine ⟨ds, ?_, hne, ?_⟩
      · rw [hc, List.cons_append, ← hsplit, hdrop]
      · intro c2 hc2
        rw [hds] at hc2
        exact List.mem_takeWhile_imp hc2
  · rintro ⟨ds, rfl, hne, hdig⟩
    rw [List.cons_append]
    simp only [isPageNumberLine]
    have htw : (ds ++ ['―']).takeWhile isDigitFW = ds := by
      have hsh : ds ++ ['―'] = ds ++ '―' :: [] := rfl
      rw [hsh]
      exact takeWhile_append_of_forall isDigitFW ds '―' [] hdig (by decide)
    have hdr : (ds ++ ['―']).drop ds.length = ['―'] := List.drop_left ds ['―']
    rw [htw]
    simp [hdr, List.isEmpty_iff, hne]

theorem isFolioLine_iff (s : List Char) :
    isFolioLine s = true ↔
      ∃ d1 d2 : List Char,
        s = '（' :: d1 ++ '―' :: d2 ++ ['）'] ∧ d1 ≠ [] ∧ d2 ≠ [] ∧
        (∀ c ∈ d1, isDigitFW c = true) ∧ (∀ c ∈ d2, isDigitFW c = true) := by
  constructor
  · intro h
    match s with
    | [] => exact absurd h (by simp [isFolioLine])
    | c :: rest =>
      simp only [isFolioLine] at h
      set d1 := rest.takeWhile isDigitFW with hd1
      rcases hrest : rest.drop d1.length with _ | ⟨c2, rest2⟩
      · rw [hrest] at h
        simp at h
      · rw [hrest] at h
        simp only [Bool.and_eq_true, beq_iff_eq, Bool.not_eq_true'] at h
        obtain ⟨⟨hc, hd1emp⟩, ⟨hc2, hd2emp⟩, hdrop2⟩ := h
        set d2 := rest2.takeWhile isDigitFW with hd2
        have hd1ne : d1 ≠ [] := by
          intro hc3
          rw [hc3] at hd1emp
          exact absurd hd1emp (by simp)
        have hd2ne : d2 ≠ [] := by
          intro hc3
          rw [hc3] at hd2emp
          exact absurd hd2emp (by simp)
        have htake1 : rest.take d1.length = d1 := by
          rw [hd1]
          exact take_takeWhile_length isDigitFW rest
        have hsplit1 : d1 ++ rest.drop d1.length = rest := by
          nth_rewrite 1 [← htake1]
          exact List.take_append_drop d1.length rest
        have htake2 : rest2.take d2.length = d2 := by
          rw [hd2]
          exact take_takeWhile_length isDigitFW rest2
        have hsplit2 : d2 ++ rest2.drop d2.length = rest2 := by
          nth_rewrite 1 [← htake2]
          exact List.take_append_drop d2.length rest2
        have hrest2eq : rest2 = d2 ++ ['）'] := by
          rw [← hsplit2, hdrop2]
        have hresteq : rest = d1 ++ '―' :: (d2 ++ ['）']) := by
          rw [← hsplit1, hrest, hc2, hrest2eq]
        refine ⟨d1, d2, ?_, hd1ne, hd2ne, ?_, ?_⟩
        · rw [hc, hresteq]
          simp [List.append_assoc]
        · intro c3 hc3
          rw [hd1] at hc3
          exact List.mem_takeWhile_imp hc3
        · intro c3 hc3
          rw [hd2] at hc3
          exact List.mem_takeWhile_imp hc3
  · rintro ⟨d1, d2, rfl, h1ne, h2ne, h1dig, h2dig⟩
    simp only [List.cons_append, List.append_assoc]
    simp only [isFolioLine]
    have htw1 : (d1 ++ '―' :: (d2 ++ ['）'])).takeWhile isDigitFW = d1 :=
      takeWhile_append_of_forall isDigitFW d1 '―' (d2 ++ ['）']) h1dig (by decide)
    have hdr1 : (d1 ++ '―' :: (d2 ++ ['）'])).drop d1.length
        = '―' :: (d2 ++ ['）']) := List.drop_left d1 _
    rw [htw1, hdr1]
    dsimp only
    have htw2 : (d2 ++ ['）']).takeWhile isDigitFW = d2 := by
      have hsh : d2 ++ ['）'] = d2 ++ '）' :: [] := rfl
      rw [hsh]
      exact takeWhile_append_of_forall isDigitFW d2 '）' [] h2dig (by decide)
    have hdr2 : (d2 ++ ['）']).drop d2.length = ['）'] := List.drop_left d2 ['）']
    rw [htw2, hdr2]
    simp [List.isEmpty_iff, h1ne, h2ne]

/-! ### Claim C8 -/

/-- Claim C8: the normalizer keeps, in order, exactly the trimmed lines
that are not empty, not standalone page-number markers
`―digits―` (full-width digits allowed), not parenthesized
`（page―total）` folio markers, and not members of the fixed exclusion
set {化学, 学, 化}; the second conjunct characterizes the keep test
declaratively. -/
theorem normalize_text_spec (text : String) :
    normalize_text text
      = String.intercalate "\n"
          (((text.splitOn "\n").map String.trim).filter keepLine) ∧
    ∀ line : String, keepLine line = true ↔
      ¬ (line = "" ∨
         (∃ ds : List Char, line.data = '―' :: ds ++ ['―'] ∧ ds ≠ [] ∧
            ∀ c ∈ ds, isDigitFW c = true) ∨
         (∃ d1 d2 : List Char,
            line.data = '（' :: d1 ++ '―' :: d2 ++ ['）'] ∧ d1 ≠ [] ∧ d2 ≠ [] ∧
            (∀ c ∈ d1, isDigitFW c = true) ∧ (∀ c ∈ d2, isDigitFW c = true)) ∨
         line = "化学" ∨ line = "学" ∨ line = "化") := by
  refine ⟨rfl, ?_⟩
  intro line
  unfold keepLine
  rw [← isPageNumberLine_iff, ← isFolioLine_iff]
  simp only [Bool.and_eq_true, Bool.not_eq_true', beq_eq_false_iff_ne, ne_eq,
    Bool.or_eq_false_iff, not_or, Bool.not_eq_true]
  tauto

end Extract

/-! ## app.py : the /pdf/ path-traversal guard

The guard of `AppHandler.do_GET` uses the POSIX path functions of the
Python standard library (`os.path.normpath`, `os.path.join`, `str.lstrip`,
`os.path.abspath`, `str.startswith`).  Paths are modelled as character
lists; since `ROOT_DIR` (hence `PDF_ROOT` and the joined file path) is
absolute, `os.path.abspath` coincides with `os.path.normpath`, which is
how it is modelled.  Symbolic links are outside the lexical model. -/

/-- Splitting a path on the separator: Python `str.split("/")`. -/
def splitSlash : List Char → List (List Char)
  | [] => [[]]
  | c :: rest =>
      if c = '/' then [] :: splitSlash rest
      else
        match splitSlash rest with
        | comp :: comps => (c :: comp) :: comps
        | [] => [[c]]

/-- The component loop of POSIX `os.path.normpath`: drop empty and `.`
components; append a component unless it is a resolvable `..`, which pops
the last kept component instead (a leading `..` of an absolute path is
dropped, of a relative path kept). -/
def normLoop (isAbs : Bool) : List (List Char) → List (List Char) → List (List Char)
  | acc, [] => acc
  | acc, comp :: rest =>
      if comp = [] ∨ comp = ['.'] then normLoop isAbs acc rest
      else if comp ≠ ['.', '.'] ∨ (isAbs = false ∧ acc = []) ∨
          (acc ≠ [] ∧ acc.getLast? = some ['.', '.']) then
        normLoop isAbs (acc ++ [comp]) rest
      else if acc ≠ [] then normLoop isAbs acc.dropLast rest
      else normLoop isAbs acc rest

/-- The kept components of the normalized form of a path. -/
def normComponents (path : List Char) : List (List Char) :=
  normLoop (['/'].isPrefixOf path) [] (splitSlash path)

/-- Embeds POSIX `os.path.normpath`, including the special two-slash
root. -/
def normpath (path : List Char) : List Char :=
  if path = [] then ['.']
  else
    let initial_slashes := ['/'].isPrefixOf path
    let double_slashes := initial_slashes && ['/', '/'].isPrefixOf path &&
      !(['/', '/', '/'].isPrefixOf path)
    let joined := List.intercalate ['/'] (normComponents path)
    let out := (if double_slashes then ['/', '/']
                else if initial_slashes then ['/'] else []) ++ joined
    if out = [] then ['.'] else out

/-- Embeds POSIX `os.path.join` for the two-argument call of the guard. -/
def joinPath (a b : List Char) : List Char :=
  if ['/'].isPrefixOf b then b
  else if a = [] ∨ a.getLast? = some '/' then a ++ b
  else a ++ '/' :: b

/-- Embeds `str.lstrip("/\\")`. -/
def lstripSlashes (s : List Char) : List Char :=
  s.dropWhile (fun c => c == '/' || c == '\\')

/-- Embeds the `/pdf/` branch of `AppHandler.do_GET` after the route
dispatch: `rel` is the request path with the `/pdf/` route stripped,
`root` is `PDF_ROOT`.  The result is the file path handed to `send_file`
(which may still answer 404 for a missing file), or `none` for the
"Invalid path" rejection. -/
def handle_pdf (root rel : List Char) : Option (List Char) :=
  let safe_rel := lstripSlashes (normpath rel)
  let file_path := joinPath root safe_rel
  if (normpath root ++ ['/']).isPrefixOf (normpath file_path) then some file_path
  else none

/-! ### Supporting lemmas for the traversal guard -/

theorem isPrefixOf_slash_iff (l : List Char) :
    (['/'].isPrefixOf l) = true ↔ ∃ r, l = '/' :: r := by
  cases l with
  | nil => simp [List.isPrefixOf]
  | cons c rest =>
    simp only [List.isPrefixOf, Bool.and_eq_true, beq_iff_eq]
    constructor
    · intro ⟨h, _⟩
      exact ⟨rest, by rw [h]⟩
    · rintro ⟨r, hr⟩
      rw [List.cons_eq_cons] at hr
      exact ⟨hr.1.symm, by simp⟩

theorem lstripSlashes_not_slash (l : List Char) :
    (['/'].isPrefixOf (lstripSlashes l)) = false := by
  unfold lstripSlashes
  induction l with
  | nil => rfl
  | cons c rest ih =>
    by_cases h : (c == '/' || c == '\\') = true
    · rw [List.dropWhile_cons, if_pos h]
      exact ih
    · rw [List.dropWhile_cons, if_neg h]
      simp only [Bool.or_eq_true, beq_iff_eq, not_or] at h
      simp only [List.isPrefixOf, List.isPrefixOf_nil_left, Bool.and_true]
      exact beq_eq_false_iff_ne.mpr (Ne.symm h.1)

theorem isPrefixOf_slash_append (a b : List Char)
    (h : (['/'].isPrefixOf a) = true) : (['/'].isPrefixOf (a ++ b)) = true := by
  obtain ⟨r, rfl⟩ := (isPrefixOf_slash_iff a).mp h
  rw [List.cons_append]
  exact (isPrefixOf_slash_iff _).mpr ⟨r ++ b, rfl⟩

theorem normLoop_no_dotdot (comps : List (List Char)) (acc : List (List Char))
    (hacc : ∀ c ∈ acc, c ≠ ['.', '.']) :
    ∀ c ∈ normLoop true acc comps, c ≠ ['.', '.'] := by
  induction comps generalizing acc with
  | nil => exact hacc
  | cons comp rest ih =>
    unfold normLoop
    by_cases h1 : comp = [] ∨ comp = ['.']
    · rw [if_pos h1]
      exact ih acc hacc
    · rw [if_neg h1]
      by_cases h2 : comp ≠ ['.', '.'] ∨ ((true : Bool) = false ∧ acc = []) ∨
          (acc ≠ [] ∧ acc.getLast? = some ['.', '.'])
      · rw [if_pos h2]
        apply ih
        intro c hc
        rcases List.mem_append.mp hc with hc | hc
        · exact hacc c hc
        · rw [List.mem_singleton] at hc
          rcases h2 with h2 | h2 | h2
          · rw [hc]; exact h2
          · exact absurd h2.1 (by simp)
          · exact absurd (List.mem_of_getLast?_eq_some h2.2) (fun hm =>
              hacc _ hm rfl)
      · rw [if_neg h2]
        by_cases h3 : acc ≠ []
        · rw [if_pos h3]
          exact ih _ (fun c hc => hacc c (List.dropLast_subset acc hc))
        · rw [if_neg h3]
          exact ih acc hacc

/-! ### Claim C7 -/

/-- Claim C7: with the PDF output root an absolute, already-normalized
path (true of the `PDF_ROOT` constant), every request the `/pdf/` handler
serves resolves — through `normpath`, which is what `abspath` performs on
these absolute paths — to a path that extends `root ++ "/"` and whose
normalized components contain no remaining `..`; every other request is
rejected with the invalid-path response (the `none` branch).  So no path
resolving outside the output root is ever served. -/
theorem pdf_guard_spec (root rel : List Char)
    (hroot_norm : normpath root = root)
    (hroot_abs : (['/'].isPrefixOf root) = true) :
    ∀ fp, handle_pdf root rel = some fp →
      ((root ++ ['/']).isPrefixOf (normpath fp)) = true ∧
      ∀ c ∈ normComponents fp, c ≠ ['.', '.'] := by
  intro fp hserve
  unfold handle_pdf at hserve
  by_cases hguard : ((normpath root ++ ['/']).isPrefixOf
      (normpath (joinPath root (lstripSlashes (normpath rel))))) = true
  · rw [if_pos hguard] at hserve
    simp only [Option.some_inj] at hserve
    rw [← hserve]
    constructor
    · rw [hroot_norm] at hguard
      exact hguard
    · have hfp_abs : (['/'].isPrefixOf
          (joinPath root (lstripSlashes (normpath rel)))) = true := by
        unfold joinPath
        rw [if_neg (by rw [lstripSlashes_not_slash (normpath rel)]; simp)]
        by_cases hcase : root = [] ∨ root.getLast? = some '/'
        · rw [if_pos hcase]
          exact isPrefixOf_slash_append root _ hroot_abs
        · rw [if_neg hcase]
          obtain ⟨r, hr⟩ := (isPrefixOf_slash_iff root).mp hroot_abs
          rw [hr, List.cons_append]
          exact (isPrefixOf_slash_iff _).mpr ⟨_, rfl⟩
      unfold normComponents
      rw [hfp_abs]
      exact normLoop_no_dotdot _ [] (by simp)
  · rw [if_neg hguard] at hserve
    exact absurd hserve (by simp)

/-- Witness for Claim C7: a benign relative path under a concrete root is
served and resolves inside the root. -/
theorem pdf_guard_spec_witness :
    (normpath ('/' :: 'p' :: 'd' :: 'f' :: []) = '/' :: 'p' :: 'd' :: 'f' :: [] ∧
      (['/'].isPrefixOf ('/' :: 'p' :: 'd' :: 'f' :: [])) = true ∧
      handle_pdf ('/' :: 'p' :: 'd' :: 'f' :: []) ('a' :: [])
        = some ('/' :: 'p' :: 'd' :: 'f' :: '/' :: 'a' :: [])) ∧
    ((('/' :: 'p' :: 'd' :: 'f' :: []) ++ ['/']).isPrefixOf
        (normpath ('/' :: 'p' :: 'd' :: 'f' :: '/' :: 'a' :: []))) = true ∧
    ∀ c ∈ normComponents ('/' :: 'p' :: 'd' :: 'f' :: '/' :: 'a' :: []),
      c ≠ ['.', '.'] :=
  ⟨⟨by decide, by decide, by decide⟩,
    pdf_guard_spec ('/' :: 'p' :: 'd' :: 'f' :: []) ('a' :: [])
      (by decide) (by decide) ('/' :: 'p' :: 'd' :: 'f' :: '/' :: 'a' :: [])
      (by decide)⟩

end ChemSearch
